import Mathlib

/-!
Shallow embedding of the Pairwise-Test-Case-Generator core
(src/algo.py, src/greedyalgo.py), together with theorems settling the
specification claims about it.

Modelling conventions:
* A Python parameter dictionary (ordered name-to-domain mapping with
  distinct keys) is a `List (String × List String)` kept in insertion
  order; distinctness of keys is an explicit hypothesis where needed.
* Python sets of pairs are `Finset`; `len` of the list made from a set
  is `Finset.card`.
* Python tuples of values (test cases) are `List String`.
* Python compares strings lexicographically on code points; that
  comparison is embedded executably as `strLtb` below (Lean's built-in
  `String.ltb` is well-founded-recursive and does not reduce in the
  kernel, so concrete instances could not be checked with it).
* The ortools CP-SAT engine used by src/algo.py is an external library;
  only the code of algo.find_minimum_test_suite itself (validation and
  the dispatch on the solver status, lines 17-55) is embedded, with the
  engine's reported status and chosen candidates passed in as
  parameters.
-/

namespace PTC

/-- Code-point comparison of characters, as Python compares the
characters of a string. -/
def charLtb (a b : Char) : Bool := a.val.toNat < b.val.toNat

/-- Lexicographic comparison of character lists. -/
def lexLtb : List Char → List Char → Bool
  | [], [] => false
  | [], _ :: _ => true
  | _ :: _, [] => false
  | a :: as, b :: bs => charLtb a b || (a == b && lexLtb as bs)

/-- Python's `s1 < s2` on strings: lexicographic on code points. -/
def strLtb (a b : String) : Bool := lexLtb a.data b.data

/-- Python's `s1 < s2` on strings, as a proposition. -/
def strLt (a b : String) : Prop := strLtb a b = true

/-- The ordering used by Python's `sorted` on strings (`a` may precede
`b` iff `b < a` fails). -/
def strLe (a b : String) : Prop := strLtb b a = false

instance : DecidablePred fun p : String × String => strLt p.1 p.2 := by
  intro p; unfold strLt; infer_instance

instance strLtDecidable : ∀ a b, Decidable (strLt a b) := by
  intro a b; unfold strLt; infer_instance

instance strLeDecidable : ∀ a b, Decidable (strLe a b) := by
  intro a b; unfold strLe; infer_instance

theorem charLtb_irrefl (a : Char) : charLtb a a = false := by
  simp [charLtb]

theorem charLtb_trans {a b c : Char} (h1 : charLtb a b = true) (h2 : charLtb b c = true) :
    charLtb a c = true := by
  simp only [charLtb, decide_eq_true_eq] at *
  omega

theorem charLtb_eq_of_not {a b : Char} (h1 : charLtb a b = false) (h2 : charLtb b a = false) :
    a = b := by
  simp only [charLtb, decide_eq_false_iff_not, not_lt] at h1 h2
  exact Char.ext (UInt32.ext (le_antisymm h2 h1))

theorem lexLtb_irrefl (as : List Char) : lexLtb as as = false := by
  induction as with
  | nil => rfl
  | cons a as ih => simp [lexLtb, charLtb_irrefl, ih]

theorem lexLtb_eq_of_not : ∀ {as bs : List Char},
    lexLtb as bs = false → lexLtb bs as = false → as = bs
  | [], [], _, _ => rfl
  | [], _ :: _, h1, _ => by cases h1
  | _ :: _, [], _, h2 => by cases h2
  | a :: as, b :: bs, h1, h2 => by
    simp only [lexLtb, Bool.or_eq_false_iff, Bool.and_eq_false_iff] at h1 h2
    have hab : a = b := charLtb_eq_of_not h1.1 h2.1
    subst hab
    rcases h1.2 with h | h
    · simp at h
    · rcases h2.2 with h2' | h2'
      · simp at h2'
      · rw [lexLtb_eq_of_not h h2']

theorem lexLtb_trans : ∀ {as bs cs : List Char},
    lexLtb as bs = true → lexLtb bs cs = true → lexLtb as cs = true
  | [], _, _ :: _, _, _ => rfl
  | [], _ :: _, [], _, h2 => by cases h2
  | [], [], [], h1, _ => by cases h1
  | _ :: _, [], _, h1, _ => by cases h1
  | _ :: _, _ :: _, [], _, h2 => by cases h2
  | a :: as, b :: bs, c :: cs, h1, h2 => by
    simp only [lexLtb, Bool.or_eq_true, Bool.and_eq_true, beq_iff_eq] at h1 h2 ⊢
    rcases h1 with h1 | ⟨hab, h1⟩
    · rcases h2 with h2 | ⟨hbc, h2⟩
      · exact Or.inl (charLtb_trans h1 h2)
      · subst hbc; exact Or.inl h1
    · subst hab
      rcases h2 with h2 | ⟨hbc, h2⟩
      · exact Or.inl h2
      · subst hbc; exact Or.inr ⟨rfl, lexLtb_trans h1 h2⟩

theorem lexLtb_asymm {as bs : List Char} (h : lexLtb as bs = true) :
    lexLtb bs as = false := by
  by_contra h2
  rw [Bool.not_eq_false] at h2
  have := lexLtb_trans h h2
  rw [lexLtb_irrefl] at this
  cases this

theorem strLt_irrefl (a : String) : ¬ strLt a a := by
  simp [strLt, strLtb, lexLtb_irrefl]

theorem strLt_trans {a b c : String} (h1 : strLt a b) (h2 : strLt b c) : strLt a c :=
  lexLtb_trans h1 h2

theorem strLt_asymm {a b : String} (h : strLt a b) : ¬ strLt b a := by
  intro h2
  have h3 : lexLtb b.data a.data = false := lexLtb_asymm h
  unfold strLt strLtb at h2
  rw [h2] at h3
  cases h3

theorem strLt_of_not {a b : String} (h1 : ¬ strLt a b) (h2 : a ≠ b) : strLt b a := by
  unfold strLt strLtb at *
  rcases hba : lexLtb b.data a.data with _ | _
  · rcases hab : lexLtb a.data b.data with _ | _
    · exact absurd (String.ext (lexLtb_eq_of_not hab hba)) h2
    · exact absurd hab h1
  · rfl

theorem strLe_total (a b : String) : strLe a b ∨ strLe b a := by
  unfold strLe
  rcases h : strLtb a b with _ | _
  · right; rfl
  · left; exact lexLtb_asymm h

theorem strLe_trans {a b c : String} (h1 : strLe a b) (h2 : strLe b c) : strLe a c := by
  unfold strLe strLtb at *
  by_contra h3
  rw [Bool.not_eq_false] at h3
  rcases hbc : lexLtb b.data c.data with _ | _
  · have hbc2 : b = c := String.ext (lexLtb_eq_of_not hbc h2)
    subst hbc2
    rw [h3] at h1
    cases h1
  · have := lexLtb_trans hbc h3
    rw [this] at h1
    cases h1

instance : IsTotal String strLe := ⟨strLe_total⟩

instance : IsTrans String strLe := ⟨fun _ _ _ => strLe_trans⟩

/-- One (parameter name, value) assignment, a Python 2-tuple of strings. -/
abbrev Assignment := String × String

/-- A 2-way requirement: a pair of assignments from two parameters. -/
abbrev Pair := Assignment × Assignment

/-- The parameter map: ordered name-to-domain mapping. -/
abbrev Params := List (String × List String)

/-- Lookup of `parameters[k]` (first binding of key `k`, as in a dict). -/
def domOf (parameters : Params) (k : String) : List String :=
  (parameters.lookup k).getD []

/-- All ordered pairs (x, y) with x strictly before y in the list:
itertools.combinations(l, 2) in its enumeration order. -/
def listPairs {α : Type} : List α → List (α × α)
  | [] => []
  | x :: xs => (xs.map fun y => (x, y)) ++ listPairs xs

/-- sorted(parameters.keys()): the parameter names in ascending
lexicographic order. -/
def sortedKeys (parameters : Params) : List String :=
  List.insertionSort strLe (parameters.map Prod.fst)

/-- The enumeration underlying generate_pairwise_combinations: for every
combination (p1, p2) of sorted parameter names and every v1 in
parameters[p1], v2 in parameters[p2], the element ((p1,v1),(p2,v2)). -/
def pairUniverseList (parameters : Params) : List Pair :=
  (listPairs (sortedKeys parameters)).flatMap fun pq =>
    (domOf parameters pq.1).flatMap fun v1 =>
      (domOf parameters pq.2).map fun v2 => ((pq.1, v1), (pq.2, v2))

/-- generate_pairwise_combinations of src/algo.py lines 5-15 and
src/greedyalgo.py lines 4-13 (the two are textually identical): the set
`all_pairs` accumulated by the nested loops.  The Python function
returns `list(all_pairs)`; we keep the set itself, and `len` of that
list is the card of this Finset. -/
def generate_pairwise_combinations (parameters : Params) : Finset Pair :=
  (pairUniverseList parameters).toFinset

/-- Python's `<` on (name, value) 2-tuples: lexicographic, name first. -/
def asgLtb (x y : Assignment) : Bool :=
  strLtb x.1 y.1 || (x.1 == y.1 && strLtb x.2 y.2)

/-- tuple(sorted([x, y])) for two assignments: swap iff the second is
strictly smaller (Python's sort is stable). -/
def sortPair (p : Pair) : Pair :=
  if asgLtb p.2 p.1 then (p.2, p.1) else p

/-- get_pairs_in_test of src/greedyalgo.py lines 15-20: the set of
name-sorted assignment pairs realized by a test case, one for each
combination (p1, p2) of positions. -/
def get_pairs_in_test (test : List String) (param_keys : List String) : Finset Pair :=
  ((listPairs (List.range param_keys.length)).map fun ij =>
    sortPair ((param_keys.getD ij.1 "", test.getD ij.1 ""),
              (param_keys.getD ij.2 "", test.getD ij.2 ""))).toFinset

/-- list(product(*parameters.values())): the candidate space, in
itertools.product enumeration order (first domain varies slowest). -/
def cartesianProduct : List (List String) → List (List String)
  | [] => [[]]
  | d :: ds => d.flatMap fun v => (cartesianProduct ds).map fun rest => v :: rest

/-- Number of currently uncovered pairs a candidate would newly cover
(`new_pairs = len(test_pairs - covered_pairs)` in src/greedyalgo.py). -/
def newCount (param_keys : List String) (covered : Finset Pair) (test : List String) : Nat :=
  ((get_pairs_in_test test param_keys) \ covered).card

/-- The candidate scan of one iteration of the greedy loop
(src/greedyalgo.py lines 31-40): fold over all candidates carrying
(best_test, best_new_pairs), updating on a strictly greater count. -/
def selectLoop (param_keys : List String) (covered : Finset Pair) :
    List (List String) → Option (List String) × Nat → Option (List String) × Nat
  | [], best => best
  | test :: rest, best =>
    let np := newCount param_keys covered test
    selectLoop param_keys covered rest (if best.2 < np then (some test, np) else best)

end PTC

namespace PTC

/-- The accumulator of `selectLoop` either is returned unchanged, or is
replaced by some scanned candidate together with its strictly larger
new-pair count. -/
theorem selectLoop_result (param_keys : List String) (covered : Finset Pair) :
    ∀ (l : List (List String)) (acc : Option (List String) × Nat),
      selectLoop param_keys covered l acc = acc ∨
      ∃ t, t ∈ l ∧ selectLoop param_keys covered l acc =
        (some t, newCount param_keys covered t) ∧
        acc.2 < newCount param_keys covered t := by
  intro l
  induction l with
  | nil => intro acc; left; rfl
  | cons test rest ih =>
    intro acc
    by_cases h : acc.2 < newCount param_keys covered test
    · rcases ih (some test, newCount param_keys covered test) with h2 | ⟨t, ht, h2, h3⟩
      · right
        refine ⟨test, List.mem_cons_self _ _, ?_, h⟩
        simpa [selectLoop, h] using h2
      · right
        refine ⟨t, List.mem_cons_of_mem _ ht, ?_, ?_⟩
        · simpa [selectLoop, h] using h2
        · exact lt_trans h h3
    · rcases ih acc with h2 | ⟨t, ht, h2, h3⟩
      · left; simpa [selectLoop, h] using h2
      · right
        exact ⟨t, List.mem_cons_of_mem _ ht, by simpa [selectLoop, h] using h2, h3⟩

/-- Covering a nonempty set of new pairs strictly grows the covered set. -/
theorem card_union_lt_of_newCount_pos (covered P : Finset Pair)
    (h : 0 < (P \ covered).card) : covered.card < (covered ∪ P).card := by
  apply Finset.card_lt_card
  rw [Finset.ssubset_iff_of_subset Finset.subset_union_left]
  rcases Finset.card_pos.mp h with ⟨x, hx⟩
  rcases Finset.mem_sdiff.mp hx with ⟨hxP, hxc⟩
  exact ⟨x, Finset.mem_union_right _ hxP, hxc⟩

/-- The while-loop of find_minimum_test_suite in src/greedyalgo.py
(lines 25-42): while fewer pairs are covered than the universe holds,
scan all candidates, stop if none covers a new pair, else append the
best candidate and merge its pairs into the covered set.  Returns the
built suite together with the final covered set (the loop's local
`covered_pairs`, made explicit state). -/
def greedyLoop (all_values : List (List String)) (param_keys : List String)
    (pairCount : Nat) (covered : Finset Pair) : List (List String) × Finset Pair :=
  if h : covered.card < pairCount then
    match hsel : selectLoop param_keys covered all_values (none, 0) with
    | (none, _) => ([], covered)
    | (some best, _) =>
      let r := greedyLoop all_values param_keys pairCount
        (covered ∪ get_pairs_in_test best param_keys)
      (best :: r.1, r.2)
  else ([], covered)
termination_by pairCount - covered.card
decreasing_by
  rcases selectLoop_result param_keys covered all_values (none, 0) with h2 | ⟨t, ht, h2, h3⟩
  · rw [hsel] at h2; cases h2
  · rw [hsel] at h2
    have hbt : best = t := by cases h2; rfl
    have hpos : 0 < newCount param_keys covered t := by simpa using h3
    subst hbt
    have hlt := card_union_lt_of_newCount_pos covered (get_pairs_in_test best param_keys) hpos
    exact Nat.sub_lt_sub_left h hlt

/-- Fuel-indexed mirror of `greedyLoop`, structurally recursive so that
the kernel can evaluate it on concrete inputs; `greedyLoopF_eq` below
shows it agrees with `greedyLoop` whenever the fuel dominates the loop
measure. -/
def greedyLoopF (all_values : List (List String)) (param_keys : List String)
    (pairCount : Nat) : Nat → Finset Pair → List (List String) × Finset Pair
  | 0, covered => ([], covered)
  | fuel + 1, covered =>
    if covered.card < pairCount then
      match selectLoop param_keys covered all_values (none, 0) with
      | (none, _) => ([], covered)
      | (some best, _) =>
        let r := greedyLoopF all_values param_keys pairCount fuel
          (covered ∪ get_pairs_in_test best param_keys)
        (best :: r.1, r.2)
    else ([], covered)

/-- The greedy loop of src/greedyalgo.py started on the given parameter
map: candidate space in product order, keys in insertion order, empty
covered set. -/
def greedyFull (parameters : Params) : List (List String) × Finset Pair :=
  greedyLoop (cartesianProduct (parameters.map Prod.snd)) (parameters.map Prod.fst)
    (generate_pairwise_combinations parameters).card ∅

end PTC

namespace PTC.greedyalgo

/-- find_minimum_test_suite of src/greedyalgo.py lines 22-48: run the
greedy loop from an empty suite and covered set and return
(test_suite, all_pairs).  The source performs no input validation and
has no failure channel, so the type is a plain pair. -/
def find_minimum_test_suite (parameters : Params) :
    List (List String) × Finset Pair :=
  ((greedyFull parameters).1, generate_pairwise_combinations parameters)

end PTC.greedyalgo

namespace PTC

/-- Unfolding `greedyLoop` when the covered count has reached the pair
count: the while condition fails and the suite so far is returned. -/
theorem greedyLoop_exit (all_values : List (List String)) (param_keys : List String)
    (pairCount : Nat) (covered : Finset Pair) (h : ¬ covered.card < pairCount) :
    greedyLoop all_values param_keys pairCount covered = ([], covered) := by
  rw [greedyLoop]
  simp [h]

/-- Unfolding `greedyLoop` when no candidate covers a new pair: the
loop breaks with the suite so far. -/
theorem greedyLoop_break (all_values : List (List String)) (param_keys : List String)
    (pairCount : Nat) (covered : Finset Pair) (n : Nat)
    (hsel : selectLoop param_keys covered all_values (none, 0) = (none, n)) :
    greedyLoop all_values param_keys pairCount covered = ([], covered) := by
  rw [greedyLoop]
  split
  · split
    · rfl
    · rename_i best m h2
      rw [hsel] at h2; cases h2
  · rfl

/-- Unfolding `greedyLoop` when a best candidate exists: it is appended
and the loop continues with its pairs merged into the covered set. -/
theorem greedyLoop_step (all_values : List (List String)) (param_keys : List String)
    (pairCount : Nat) (covered : Finset Pair) (best : List String) (n : Nat)
    (h : covered.card < pairCount)
    (hsel : selectLoop param_keys covered all_values (none, 0) = (some best, n)) :
    greedyLoop all_values param_keys pairCount covered =
      ((best :: (greedyLoop all_values param_keys pairCount
          (covered ∪ get_pairs_in_test best param_keys)).1,
        (greedyLoop all_values param_keys pairCount
          (covered ∪ get_pairs_in_test best param_keys)).2)) := by
  rw [greedyLoop]
  split
  · split
    · rename_i h2
      rw [hsel] at h2; cases h2
    · rename_i b m h2
      rw [hsel] at h2
      cases h2
      rfl
  · exact absurd h (by assumption)

/-- With enough fuel, the fuel-indexed mirror computes exactly
`greedyLoop`. -/
theorem greedyLoopF_eq (all_values : List (List String)) (param_keys : List String)
    (pairCount : Nat) :
    ∀ (fuel : Nat) (covered : Finset Pair), pairCount - covered.card ≤ fuel →
      greedyLoopF all_values param_keys pairCount fuel covered =
        greedyLoop all_values param_keys pairCount covered := by
  intro fuel
  induction fuel with
  | zero =>
    intro covered hf
    have h : ¬ covered.card < pairCount := by omega
    rw [greedyLoop_exit _ _ _ _ h]
    rfl
  | succ fuel ih =>
    intro covered hf
    by_cases h : covered.card < pairCount
    · rcases hsel : selectLoop param_keys covered all_values (none, 0) with ⟨b, n⟩
      cases b with
      | none =>
        rw [greedyLoop_break _ _ _ _ _ hsel]
        simp [greedyLoopF, h, hsel]
      | some best =>
        have hpos : 0 < newCount param_keys covered best := by
          rcases selectLoop_result param_keys covered all_values (none, 0) with h2 | ⟨t, ht, h2, h3⟩
          · rw [hsel] at h2; cases h2
          · rw [hsel] at h2
            have : best = t := by cases h2; rfl
            subst this
            simpa using h3
        have hlt := card_union_lt_of_newCount_pos covered
          (get_pairs_in_test best param_keys) hpos
        have hrec : pairCount - (covered ∪ get_pairs_in_test best param_keys).card ≤ fuel := by
          omega
        rw [greedyLoop_step _ _ _ _ _ _ h hsel]
        simp only [greedyLoopF, h, if_true, hsel]
        rw [ih _ hrec]
    · rw [greedyLoop_exit _ _ _ _ h]
      simp [greedyLoopF, h]

/-- Union of a list of pair sets. -/
def unionOf (ls : List (Finset Pair)) : Finset Pair :=
  ls.foldr (fun s acc => s ∪ acc) ∅

/-- The reporting loop shared by both count_unique_pairs analyzers:
walk the suite accumulating the covered set, the per-test pair sets and
the marginal new-coverage counts, with the per-test pair set supplied
by `testPairs`. -/
def cupLoop (testPairs : List String → Finset Pair) (covered : Finset Pair) :
    List (List String) → Finset Pair × List (Finset Pair) × List Nat
  | [] => (covered, [], [])
  | test :: rest =>
    let test_pairs := testPairs test
    let covered2 := covered ∪ test_pairs
    let nu := covered2.card - covered.card
    let r := cupLoop testPairs covered2 rest
    (r.1, test_pairs :: r.2.1, nu :: r.2.2)

end PTC

namespace PTC.greedyalgo

/-- count_unique_pairs of src/greedyalgo.py lines 50-64: per-test pair
sets are get_pairs_in_test on the insertion-order keys; the `all_pairs`
argument is accepted but never used by the source. -/
def count_unique_pairs (test_cases : List (List String)) (all_pairs : Finset Pair)
    (parameters : Params) : Finset Pair × List (Finset Pair) × List Nat :=
  cupLoop (fun test => get_pairs_in_test test (parameters.map Prod.fst)) ∅ test_cases

end PTC.greedyalgo

namespace PTC.algo

/-- The per-test pair set of count_unique_pairs in src/algo.py lines
64-68: name-sorted combinations of zip(parameters.keys(), test) that
are members of all_pairs. -/
def testPairsOf (parameters : Params) (all_pairs : Finset Pair) (test : List String) :
    Finset Pair :=
  (((listPairs ((parameters.map Prod.fst).zip test)).map sortPair).filter
    (fun p => decide (p ∈ all_pairs))).toFinset

/-- count_unique_pairs of src/algo.py lines 57-74: same reporting loop,
but each test's pair set keeps only members of all_pairs. -/
def count_unique_pairs (test_cases : List (List String)) (all_pairs : Finset Pair)
    (parameters : Params) : Finset Pair × List (Finset Pair) × List Nat :=
  cupLoop (testPairsOf parameters all_pairs) ∅ test_cases

end PTC.algo

namespace PTC

/-- A Python value bound to a parameter name: either a list of strings
(the well-formed case) or some other object, so that the source's
isinstance(v, list) check is expressible. -/
inductive PyVal : Type where
  | pylist : List String → PyVal
  | pyother : String → PyVal
deriving DecidableEq

/-- isinstance(v, list). -/
def PyVal.isList : PyVal → Bool
  | .pylist _ => true
  | .pyother _ => false

/-- The underlying list of a list-shaped value. -/
def PyVal.asList : PyVal → List String
  | .pylist l => l
  | .pyother _ => []

/-- Status reported by the external CP-SAT engine for a solve call. -/
inductive CpStatus : Type where
  | optimal
  | feasible
  | infeasible
  | unknown
  | modelInvalid
deriving DecidableEq

/-- The status dispatch of src/algo.py lines 47-55: OPTIMAL and
FEASIBLE return (suite, all_pairs); every other status returns
(None, None).  The suite extracted from the engine's assignment is
abstracted as `chosen`. -/
def solveDispatch (status : CpStatus) (chosen : List (List String))
    (all_pairs : Finset Pair) :
    Option (List (List String)) × Option (Finset Pair) :=
  match status with
  | .optimal => (some chosen, some all_pairs)
  | .feasible => (some chosen, some all_pairs)
  | _ => (none, none)

end PTC

namespace PTC.algo

/-- find_minimum_test_suite of src/algo.py lines 17-55: validate the
input (raising, modelled as `Except.error`, on an empty mapping or a
non-list domain; a non-dict argument is excluded by the type), then
build the pair universe, delegate to the external engine — whose
reported status and chosen candidates are parameters of the model —
and dispatch on the status. -/
def find_minimum_test_suite (parameters : List (String × PyVal))
    (status : PTC.CpStatus) (chosen : List (List String)) :
    Except String (Option (List (List String)) × Option (Finset PTC.Pair)) :=
  if parameters.isEmpty then .error "Parameters dictionary cannot be empty"
  else if parameters.all (fun kv => kv.2.isList) then
    .ok (PTC.solveDispatch status chosen
      (PTC.generate_pairwise_combinations (parameters.map fun kv => (kv.1, kv.2.asList))))
  else .error "All parameter values must be lists"

end PTC.algo

namespace PTC

/-- Boolean check that a test case assigns, in parameter order, one
value drawn from the corresponding parameter's own domain. -/
def drawnFromDomains : Params → List String → Bool
  | [], [] => true
  | (_, d) :: ps, v :: vs => d.contains v && drawnFromDomains ps vs
  | _ :: _, [] => false
  | [], _ :: _ => false

theorem mem_listPairs_iff {α : Type} {p : α × α} :
    ∀ {l : List α}, p ∈ listPairs l ↔ [p.1, p.2].Sublist l := by
  intro l
  induction l with
  | nil => simp [listPairs]
  | cons x xs ih =>
    rcases p with ⟨a, b⟩
    simp only [listPairs, List.mem_append, List.mem_map, ih]
    constructor
    · rintro (⟨y, hy, he⟩ | h)
      · cases he
        exact List.Sublist.cons₂ _ (List.singleton_sublist.mpr hy)
      · exact List.Sublist.cons _ h
    · intro h
      rcases List.sublist_cons_iff.mp h with h | ⟨r, hr, hsub⟩
      · exact Or.inr h
      · cases hr
        exact Or.inl ⟨b, List.singleton_sublist.mp hsub, rfl⟩

theorem fst_mem_of_mem_listPairs {α : Type} {p : α × α} {l : List α}
    (h : p ∈ listPairs l) : p.1 ∈ l ∧ p.2 ∈ l := by
  have hs := mem_listPairs_iff.mp h
  have hsub := hs.subset
  exact ⟨hsub (by simp), hsub (by simp)⟩

theorem listPairs_map {α β : Type} (f : α → β) :
    ∀ (l : List α), listPairs (l.map f) = (listPairs l).map fun xy => (f xy.1, f xy.2) := by
  intro l
  induction l with
  | nil => rfl
  | cons x xs ih => simp [listPairs, ih, List.map_map, Function.comp]

theorem listPairs_nodup {α : Type} : ∀ {l : List α}, l.Nodup → (listPairs l).Nodup := by
  intro l
  induction l with
  | nil => intro; simp [listPairs]
  | cons x xs ih =>
    intro h
    rcases List.nodup_cons.mp h with ⟨hx, hxs⟩
    rw [listPairs, List.nodup_append]
    refine ⟨List.Nodup.map (fun a b hab => by cases hab; rfl) hxs, ih hxs, ?_⟩
    intro p hp hp2
    rcases List.mem_map.mp hp with ⟨y, _, he⟩
    have := (fst_mem_of_mem_listPairs hp2).1
    rw [← he] at this
    exact hx this

theorem sorted_pair_sublist {l : List String} (hs : l.Pairwise strLt) (a b : String) :
    [a, b].Sublist l ↔ a ∈ l ∧ b ∈ l ∧ strLt a b := by
  constructor
  · intro h
    have hmem := h.subset
    have hp : List.Pairwise strLt [a, b] := List.Pairwise.sublist h hs
    exact ⟨hmem (by simp), hmem (by simp), by simpa using hp⟩
  · rintro ⟨ha, hb, hab⟩
    induction l with
    | nil => cases ha
    | cons x xs ih =>
      rcases List.pairwise_cons.mp hs with ⟨hx, hxs⟩
      rcases List.mem_cons.mp ha with rfl | ha2
      · have hbx : b ≠ a := fun he => strLt_irrefl a (he ▸ hab)
        have hb2 : b ∈ xs := by
          rcases List.mem_cons.mp hb with rfl | h
          · exact absurd rfl hbx
          · exact h
        exact List.Sublist.cons₂ _ (List.singleton_sublist.mpr hb2)
      · have hb2 : b ∈ xs := by
          rcases List.mem_cons.mp hb with rfl | h
          · exact absurd (strLt_trans hab (hx a ha2)) (strLt_irrefl a)
          · exact h
        exact List.Sublist.cons _ (ih hxs ha2 hb2)

theorem sortedKeys_perm (parameters : Params) :
    (sortedKeys parameters).Perm (parameters.map Prod.fst) :=
  List.perm_insertionSort strLe _

theorem mem_sortedKeys {parameters : Params} {a : String} :
    a ∈ sortedKeys parameters ↔ a ∈ parameters.map Prod.fst :=
  (sortedKeys_perm parameters).mem_iff

theorem sortedKeys_nodup {parameters : Params} (h : (parameters.map Prod.fst).Nodup) :
    (sortedKeys parameters).Nodup :=
  (sortedKeys_perm parameters).nodup_iff.mpr h

theorem sortedKeys_sorted_lt {parameters : Params}
    (h : (parameters.map Prod.fst).Nodup) :
    (sortedKeys parameters).Pairwise strLt := by
  have h1 : (sortedKeys parameters).Pairwise strLe :=
    List.sorted_insertionSort strLe _
  have h2 : (sortedKeys parameters).Pairwise (fun a b => a ≠ b) :=
    sortedKeys_nodup h
  refine (h1.and h2).imp ?_
  rintro a b ⟨hle, hne⟩
  have h3 : ¬ strLt b a := by
    unfold strLe at hle
    unfold strLt
    rw [hle]
    simp
  exact strLt_of_not h3 (Ne.symm hne)

theorem domOf_mem {parameters : Params} {a : String}
    (h : a ∈ parameters.map Prod.fst) : (a, domOf parameters a) ∈ parameters := by
  induction parameters with
  | nil => cases h
  | cons kv tl ih =>
    rcases kv with ⟨k, d⟩
    by_cases he : a = k
    · subst he
      have hd : domOf ((a, d) :: tl) a = d := by
        simp [domOf, List.lookup_cons]
      rw [hd]
      exact List.mem_cons_self _ _
    · have h2 : a ∈ tl.map Prod.fst := by
        rcases List.mem_cons.mp h with h | h
        · exact absurd h he
        · exact h
      right
      have : domOf ((k, d) :: tl) a = domOf tl a := by
        simp [domOf, List.lookup_cons, beq_false_of_ne he]
      rw [this]
      exact ih h2

theorem domOf_eq {parameters : Params} {a : String} {d : List String}
    (hk : (parameters.map Prod.fst).Nodup) (h : (a, d) ∈ parameters) :
    domOf parameters a = d := by
  induction parameters with
  | nil => cases h
  | cons kv tl ih =>
    rcases kv with ⟨k, dd⟩
    rcases List.nodup_cons.mp hk with ⟨hk1, hk2⟩
    rcases List.mem_cons.mp h with he | hm
    · cases he
      simp [domOf, List.lookup_cons]
    · have hne : a ≠ k := by
        rintro rfl
        exact hk1 (List.mem_map.mpr ⟨(a, d), hm, rfl⟩)
      have : domOf ((k, dd) :: tl) a = domOf tl a := by
        simp [domOf, List.lookup_cons, beq_false_of_ne hne]
      rw [this]
      exact ih hk2 hm

theorem mem_domOf_iff {parameters : Params} {a : String} {v : String}
    (hk : (parameters.map Prod.fst).Nodup) :
    (∃ d, (a, d) ∈ parameters ∧ v ∈ d) ↔
      a ∈ parameters.map Prod.fst ∧ v ∈ domOf parameters a := by
  constructor
  · rintro ⟨d, hm, hv⟩
    exact ⟨List.mem_map.mpr ⟨(a, d), hm, rfl⟩, (domOf_eq hk hm) ▸ hv⟩
  · rintro ⟨hm, hv⟩
    exact ⟨domOf parameters a, domOf_mem hm, hv⟩

/-- Membership characterization of the pair universe:
((a,va),(b,vb)) is generated iff a is lexicographically before b and
each value belongs to its parameter's domain. -/
theorem mem_generate_iff {parameters : Params}
    (hk : (parameters.map Prod.fst).Nodup) (a b va vb : String) :
    ((a, va), (b, vb)) ∈ generate_pairwise_combinations parameters ↔
      strLt a b ∧ (∃ da, (a, da) ∈ parameters ∧ va ∈ da) ∧
        ∃ db, (b, db) ∈ parameters ∧ vb ∈ db := by
  rw [generate_pairwise_combinations, List.mem_toFinset, pairUniverseList]
  simp only [List.mem_flatMap, List.mem_map]
  constructor
  · rintro ⟨pq, hpq, v1, hv1, v2, hv2, he⟩
    have hp : pq.1 = a := congrArg (fun x => x.1.1) he
    have hq : pq.2 = b := congrArg (fun x => x.2.1) he
    have hv1e : v1 = va := congrArg (fun x => x.1.2) he
    have hv2e : v2 = vb := congrArg (fun x => x.2.2) he
    rw [hp] at hv1
    rw [hq] at hv2
    rw [hv1e] at hv1
    rw [hv2e] at hv2
    have hpq2 : (a, b) ∈ listPairs (sortedKeys parameters) := by
      have hcomp : pq = (a, b) := Prod.ext hp hq
      rwa [hcomp] at hpq
    have hsub := mem_listPairs_iff.mp hpq2
    have hlt := ((sorted_pair_sublist (sortedKeys_sorted_lt hk) a b).mp hsub).2.2
    have hma : a ∈ parameters.map Prod.fst :=
      mem_sortedKeys.mp ((fst_mem_of_mem_listPairs hpq2).1)
    have hmb : b ∈ parameters.map Prod.fst :=
      mem_sortedKeys.mp ((fst_mem_of_mem_listPairs hpq2).2)
    exact ⟨hlt, (mem_domOf_iff hk).mpr ⟨hma, hv1⟩, (mem_domOf_iff hk).mpr ⟨hmb, hv2⟩⟩
  · rintro ⟨hlt, hda, hdb⟩
    rcases (mem_domOf_iff hk).mp hda with ⟨hma, hva⟩
    rcases (mem_domOf_iff hk).mp hdb with ⟨hmb, hvb⟩
    refine ⟨(a, b), ?_, va, hva, vb, hvb, rfl⟩
    exact mem_listPairs_iff.mpr ((sorted_pair_sublist (sortedKeys_sorted_lt hk) a b).mpr
      ⟨mem_sortedKeys.mpr hma, mem_sortedKeys.mpr hmb, hlt⟩)

theorem sum_map_const_nat {α : Type} (l : List α) (c : Nat) :
    (l.map fun _ => c).sum = l.length * c := by
  induction l with
  | nil => simp
  | cons x xs ih => simp [ih, Nat.succ_mul, Nat.add_comm]

/-- The inner enumeration of the universe for one key pair (p, q). -/
def innerPairs (parameters : Params) (p q : String) : List Pair :=
  (domOf parameters p).flatMap fun v1 =>
    (domOf parameters q).map fun v2 => ((p, v1), (q, v2))

theorem pairUniverseList_eq (parameters : Params) :
    pairUniverseList parameters =
      (listPairs (sortedKeys parameters)).flatMap fun pq =>
        innerPairs parameters pq.1 pq.2 := rfl

theorem mem_innerPairs_shape {parameters : Params} {p q : String} {x : Pair}
    (h : x ∈ innerPairs parameters p q) : x.1.1 = p ∧ x.2.1 = q := by
  rcases List.mem_flatMap.mp h with ⟨v1, _, hx⟩
  rcases List.mem_map.mp hx with ⟨v2, _, he⟩
  rw [← he]
  exact ⟨rfl, rfl⟩

theorem nodupDomOf {parameters : Params}
    (hd : ∀ kv ∈ parameters, (kv.2 : List String).Nodup) {p : String}
    (hp : p ∈ parameters.map Prod.fst) : (domOf parameters p).Nodup :=
  hd (p, domOf parameters p) (domOf_mem hp)

theorem innerPairs_nodup {parameters : Params} {p q : String}
    (h1 : (domOf parameters p).Nodup) (h2 : (domOf parameters q).Nodup) :
    (innerPairs parameters p q).Nodup := by
  rw [innerPairs, List.nodup_flatMap]
  constructor
  · intro v1 _
    exact List.Nodup.map (fun x y hxy => congrArg (fun z : Pair => z.2.2) hxy) h2
  · refine h1.imp ?_
    intro v1 v1' hne x hx1 hx2
    rcases List.mem_map.mp hx1 with ⟨v2, _, he1⟩
    rcases List.mem_map.mp hx2 with ⟨v2', _, he2⟩
    rw [← he1] at he2
    exact hne (congrArg (fun z : Pair => z.1.2) he2).symm

theorem pairUniverseList_nodup {parameters : Params}
    (hk : (parameters.map Prod.fst).Nodup)
    (hd : ∀ kv ∈ parameters, (kv.2 : List String).Nodup) :
    (pairUniverseList parameters).Nodup := by
  rw [pairUniverseList_eq, List.nodup_flatMap]
  constructor
  · intro pq hpq
    rcases fst_mem_of_mem_listPairs hpq with ⟨h1, h2⟩
    exact innerPairs_nodup (nodupDomOf hd (mem_sortedKeys.mp h1))
      (nodupDomOf hd (mem_sortedKeys.mp h2))
  · refine (listPairs_nodup (sortedKeys_nodup hk)).imp ?_
    intro pq pq' hne x hx1 hx2
    rcases mem_innerPairs_shape hx1 with ⟨ha1, ha2⟩
    rcases mem_innerPairs_shape hx2 with ⟨hb1, hb2⟩
    exact hne (Prod.ext (ha1 ▸ hb1 ▸ rfl) (ha2 ▸ hb2 ▸ rfl))

theorem innerPairs_length (parameters : Params) (p q : String) :
    (innerPairs parameters p q).length =
      (domOf parameters p).length * (domOf parameters q).length := by
  rw [innerPairs, List.length_flatMap]
  have : (List.map (List.length ∘ fun v1 =>
      (domOf parameters q).map fun v2 => ((p, v1), (q, v2))) (domOf parameters p)) =
      (domOf parameters p).map fun _ => (domOf parameters q).length := by
    apply List.map_congr_left
    intro v1 _
    simp [Function.comp, List.length_map]
  rw [this, sum_map_const_nat]

theorem generate_card {parameters : Params}
    (hk : (parameters.map Prod.fst).Nodup)
    (hd : ∀ kv ∈ parameters, (kv.2 : List String).Nodup) :
    (generate_pairwise_combinations parameters).card =
      ((listPairs (sortedKeys parameters)).map fun pq =>
        (domOf parameters pq.1).length * (domOf parameters pq.2).length).sum := by
  rw [generate_pairwise_combinations,
    List.toFinset_card_of_nodup (pairUniverseList_nodup hk hd),
    pairUniverseList_eq, List.length_flatMap]
  congr 1
  apply List.map_congr_left
  intro pq _
  exact innerPairs_length parameters pq.1 pq.2

/-- The final covered set of the greedy loop is the initial one united
with the pairs of every selected test. -/
theorem greedyLoop_covered (all_values : List (List String)) (param_keys : List String)
    (pairCount : Nat) :
    ∀ covered, (greedyLoop all_values param_keys pairCount covered).2 =
      covered ∪ unionOf ((greedyLoop all_values param_keys pairCount covered).1.map
        fun t => get_pairs_in_test t param_keys) := by
  intro covered
  induction covered using greedyLoop.induct all_values param_keys pairCount with
  | case1 covered h n hsel =>
    rw [greedyLoop_break _ _ _ _ _ hsel]
    simp [unionOf]
  | case2 covered h best n hsel ih =>
    rw [greedyLoop_step _ _ _ _ _ _ h hsel]
    simp only [List.map_cons, unionOf, List.foldr_cons]
    rw [ih]
    rw [Finset.union_assoc]
    rfl
  | case3 covered h =>
    rw [greedyLoop_exit _ _ _ _ h]
    simp [unionOf]

/-- The greedy loop performs at most pairCount - covered.card
iterations: the suite it builds is no longer than that. -/
theorem greedyLoop_length (all_values : List (List String)) (param_keys : List String)
    (pairCount : Nat) :
    ∀ covered, (greedyLoop all_values param_keys pairCount covered).1.length ≤
      pairCount - covered.card := by
  intro covered
  induction covered using greedyLoop.induct all_values param_keys pairCount with
  | case1 covered h n hsel =>
    rw [greedyLoop_break _ _ _ _ _ hsel]
    simp
  | case2 covered h best n hsel ih =>
    rw [greedyLoop_step _ _ _ _ _ _ h hsel]
    simp only [List.length_cons]
    have hpos : 0 < newCount param_keys covered best := by
      rcases selectLoop_result param_keys covered all_values (none, 0) with h2 | ⟨t, _, h2, h3⟩
      · rw [hsel] at h2; cases h2
      · rw [hsel] at h2
        have hbt : best = t := by cases h2; rfl
        subst hbt
        simpa using h3
    have hlt := card_union_lt_of_newCount_pos covered (get_pairs_in_test best param_keys) hpos
    omega
  | case3 covered h =>
    rw [greedyLoop_exit _ _ _ _ h]
    simp

/-- Every test in the suite built by the greedy loop covers at least
one pair that the initial covered set misses. -/
theorem greedyLoop_progress (all_values : List (List String)) (param_keys : List String)
    (pairCount : Nat) :
    ∀ covered t, t ∈ (greedyLoop all_values param_keys pairCount covered).1 →
      0 < ((get_pairs_in_test t param_keys) \ covered).card := by
  intro covered
  induction covered using greedyLoop.induct all_values param_keys pairCount with
  | case1 covered h n hsel =>
    rw [greedyLoop_break _ _ _ _ _ hsel]
    intro t ht
    cases ht
  | case2 covered h best n hsel ih =>
    rw [greedyLoop_step _ _ _ _ _ _ h hsel]
    intro t ht
    rcases List.mem_cons.mp ht with rfl | ht2
    · rcases selectLoop_result param_keys covered all_values (none, 0) with h2 | ⟨u, _, h2, h3⟩
      · rw [hsel] at h2; cases h2
      · rw [hsel] at h2
        have hbt : t = u := by cases h2; rfl
        subst hbt
        simpa [newCount] using h3
    · have := ih t ht2
      have hsub : (get_pairs_in_test t param_keys) \
          (covered ∪ get_pairs_in_test best param_keys) ⊆
          (get_pairs_in_test t param_keys) \ covered :=
        Finset.sdiff_subset_sdiff (le_refl _) Finset.subset_union_left
      calc 0 < ((get_pairs_in_test t param_keys) \
            (covered ∪ get_pairs_in_test best param_keys)).card := this
        _ ≤ ((get_pairs_in_test t param_keys) \ covered).card := Finset.card_le_card hsub
  | case3 covered h =>
    rw [greedyLoop_exit _ _ _ _ h]
    intro t ht
    cases ht

/-- The suite built by the greedy loop never repeats a test case. -/
theorem greedyLoop_nodup (all_values : List (List String)) (param_keys : List String)
    (pairCount : Nat) :
    ∀ covered, (greedyLoop all_values param_keys pairCount covered).1.Nodup := by
  intro covered
  induction covered using greedyLoop.induct all_values param_keys pairCount with
  | case1 covered h n hsel =>
    rw [greedyLoop_break _ _ _ _ _ hsel]
    simp
  | case2 covered h best n hsel ih =>
    rw [greedyLoop_step _ _ _ _ _ _ h hsel]
    rw [List.nodup_cons]
    refine ⟨?_, ih⟩
    intro hmem
    have := greedyLoop_progress all_values param_keys pairCount
      (covered ∪ get_pairs_in_test best param_keys) best hmem
    have h0 : (get_pairs_in_test best param_keys) \
        (covered ∪ get_pairs_in_test best param_keys) = ∅ := by
      apply Finset.sdiff_eq_empty_iff_subset.mpr
      exact Finset.subset_union_right
    rw [h0] at this
    simp at this
  | case3 covered h =>
    rw [greedyLoop_exit _ _ _ _ h]
    simp

/-- Cardinality of a union minus the old cardinality is the number of
newly added elements. -/
theorem card_union_sub_card (covered P : Finset Pair) :
    (covered ∪ P).card - covered.card = (P \ covered).card := by
  have h1 : covered ∪ (P \ covered) = covered ∪ P := Finset.union_sdiff_self_eq_union
  have h2 : Disjoint covered (P \ covered) := Finset.disjoint_sdiff
  rw [← h1, Finset.card_union_of_disjoint h2]
  omega

/-- The marginal counts the reporting loop assigns to the greedy suite
are exactly the new-pair counts of the selections, hence positive. -/
theorem greedyLoop_counts_pos (all_values : List (List String)) (param_keys : List String)
    (pairCount : Nat) :
    ∀ covered n, n ∈ (cupLoop (fun t => get_pairs_in_test t param_keys) covered
      (greedyLoop all_values param_keys pairCount covered).1).2.2 → 0 < n := by
  intro covered
  induction covered using greedyLoop.induct all_values param_keys pairCount with
  | case1 covered h n hsel =>
    rw [greedyLoop_break _ _ _ _ _ hsel]
    intro n hn
    cases hn
  | case2 covered h best n hsel ih =>
    rw [greedyLoop_step _ _ _ _ _ _ h hsel]
    intro m hm
    simp only [cupLoop] at hm
    rcases List.mem_cons.mp hm with rfl | hm2
    · rw [card_union_sub_card]
      rcases selectLoop_result param_keys covered all_values (none, 0) with h2 | ⟨u, _, h2, h3⟩
      · rw [hsel] at h2; cases h2
      · rw [hsel] at h2
        have hbt : best = u := by cases h2; rfl
        subst hbt
        simpa [newCount] using h3
    · exact ih m hm2
  | case3 covered h =>
    rw [greedyLoop_exit _ _ _ _ h]
    intro n hn
    cases hn

/-- The per-test pair sets of the reporting loop are the per-test sets
of its pair-set function, in suite order. -/
theorem cupLoop_sets (tp : List String → Finset Pair) :
    ∀ (ts : List (List String)) (covered : Finset Pair),
      (cupLoop tp covered ts).2.1 = ts.map tp := by
  intro ts
  induction ts with
  | nil => intro covered; rfl
  | cons t rest ih => intro covered; simp [cupLoop, ih]

/-- The final covered set of the reporting loop is the initial covered
set united with every test's pair set. -/
theorem cupLoop_covered (tp : List String → Finset Pair) :
    ∀ (ts : List (List String)) (covered : Finset Pair),
      (cupLoop tp covered ts).1 = covered ∪ unionOf (ts.map tp) := by
  intro ts
  induction ts with
  | nil => intro covered; simp [cupLoop, unionOf]
  | cons t rest ih =>
    intro covered
    simp only [cupLoop, List.map_cons, unionOf, List.foldr_cons]
    rw [ih]
    rw [Finset.union_assoc]
    rfl

/-- Two reporting loops with pointwise equal per-test pair-set
functions compute identical results. -/
theorem cupLoop_congr (tp1 tp2 : List String → Finset Pair) :
    ∀ (ts : List (List String)) (covered : Finset Pair),
      (∀ t ∈ ts, tp1 t = tp2 t) → cupLoop tp1 covered ts = cupLoop tp2 covered ts := by
  intro ts
  induction ts with
  | nil => intro covered _; rfl
  | cons t rest ih =>
    intro covered hall
    have ht := hall t (List.mem_cons_self _ _)
    simp only [cupLoop, ht]
    rw [ih _ fun u hu => hall u (List.mem_cons_of_mem _ hu)]

/-- Full characterization of the candidate scan: when it selects a
test, that test splits the candidate list so that its new-pair count
strictly exceeds every earlier candidate's and is not exceeded by any
later candidate's (first-encountered maximum). -/
theorem selectLoop_spec (param_keys : List String) (covered : Finset Pair) :
    ∀ (l : List (List String)) (b : Option (List String)) (c : Nat)
      (t : List String) (n : Nat),
      selectLoop param_keys covered l (b, c) = (some t, n) →
      ((b, c) = (some t, n) ∧ ∀ u ∈ l, newCount param_keys covered u ≤ n) ∨
      (∃ l1 l2, l = l1 ++ t :: l2 ∧ n = newCount param_keys covered t ∧ c < n ∧
        (∀ u ∈ l1, newCount param_keys covered u < n) ∧
        (∀ u ∈ l2, newCount param_keys covered u ≤ n)) := by
  intro l
  induction l with
  | nil =>
    intro b c t n h
    left
    exact ⟨h, by intro u hu; cases hu⟩
  | cons test rest ih =>
    intro b c t n h
    by_cases hcn : c < newCount param_keys covered test
    · have h2 : selectLoop param_keys covered rest
          (some test, newCount param_keys covered test) = (some t, n) := by
        simpa [selectLoop, hcn] using h
      rcases ih (some test) (newCount param_keys covered test) t n h2 with
        ⟨he, hall⟩ | ⟨l1, l2, hsplit, hn, hcl, h1, hrest⟩
      · have het : test = t := by cases he; rfl
        have hen : newCount param_keys covered test = n := by cases he; rfl
        subst het
        right
        refine ⟨[], rest, rfl, hen.symm, hen ▸ hcn, ?_, hall⟩
        intro u hu
        cases hu
      · right
        refine ⟨test :: l1, l2, by rw [hsplit]; rfl, hn, lt_trans hcn hcl, ?_, hrest⟩
        intro u hu
        rcases List.mem_cons.mp hu with rfl | hu2
        · exact hcl
        · exact h1 u hu2
    · have h2 : selectLoop param_keys covered rest (b, c) = (some t, n) := by
        simpa [selectLoop, hcn] using h
      rcases ih b c t n h2 with
        ⟨he, hall⟩ | ⟨l1, l2, hsplit, hn, hcl, h1, hrest⟩
      · left
        refine ⟨he, ?_⟩
        intro u hu
        rcases List.mem_cons.mp hu with rfl | hu2
        · have hcn2 : c = n := by cases he; rfl
          exact hcn2 ▸ (not_lt.mp hcn)
        · exact hall u hu2
      · right
        refine ⟨test :: l1, l2, by rw [hsplit]; rfl, hn, hcl, ?_, hrest⟩
        intro u hu
        rcases List.mem_cons.mp hu with rfl | hu2
        · exact lt_of_le_of_lt (not_lt.mp hcn) hcl
        · exact h1 u hu2

/-- A test drawn from the domains has as many values as there are
parameters. -/
theorem drawn_length : ∀ {parameters : Params} {test : List String},
    drawnFromDomains parameters test = true → test.length = parameters.length
  | [], [], _ => rfl
  | (k, d) :: ps, v :: vs, h => by
    simp only [drawnFromDomains, Bool.and_eq_true] at h
    simp [drawn_length h.2]
  | _ :: _, [], h => by cases h
  | [], _ :: _, h => by cases h

/-- Every (name, value) entry of zip(keys, test) for a test drawn from
the domains takes its value in that parameter's own domain. -/
theorem zip_mem_domains : ∀ {parameters : Params} {test : List String},
    drawnFromDomains parameters test = true →
    ∀ kv ∈ (parameters.map Prod.fst).zip test, ∃ d, (kv.1, d) ∈ parameters ∧ kv.2 ∈ d
  | [], [], _ => by intro kv hkv; cases hkv
  | (k, d) :: ps, v :: vs, h => by
    simp only [drawnFromDomains, Bool.and_eq_true] at h
    intro kv hkv
    rcases List.mem_cons.mp hkv with rfl | hkv2
    · exact ⟨d, List.mem_cons_self _ _, by simpa using h.1⟩
    · rcases zip_mem_domains h.2 kv hkv2 with ⟨dd, hdd, hv⟩
      exact ⟨dd, List.mem_cons_of_mem _ hdd, hv⟩
  | _ :: _, [], h => by cases h
  | [], _ :: _, h => by cases h

theorem range_map_getD : ∀ (keys test : List String), keys.length = test.length →
    (List.range keys.length).map (fun i => (keys.getD i "", test.getD i "")) =
      keys.zip test
  | [], [], _ => rfl
  | [], _ :: _, h => by cases h
  | _ :: _, [], h => by cases h
  | k :: ks, t :: ts, h => by
    have hlen : ks.length = ts.length := by
      simpa using h
    simp only [List.length_cons, List.range_succ_eq_map, List.map_cons, List.map_map,
      List.zip_cons_cons]
    refine congrArg (fun l => (k, t) :: l) ?_
    rw [← range_map_getD ks ts hlen]
    apply List.map_congr_left
    intro i _
    simp [Function.comp]

/-- With a full-length test, the index-based pair enumeration of
get_pairs_in_test equals the name-sorted pairs of zip(keys, test). -/
theorem get_pairs_in_test_eq_zip (keys test : List String)
    (h : keys.length = test.length) :
    get_pairs_in_test test keys =
      ((listPairs (keys.zip test)).map sortPair).toFinset := by
  rw [get_pairs_in_test]
  rw [← range_map_getD keys test h, listPairs_map, List.map_map]
  rfl

theorem asgLtb_of_ne (x y : Assignment) (h : y.1 ≠ x.1) :
    asgLtb y x = strLtb y.1 x.1 := by
  rw [asgLtb, beq_false_of_ne h]
  simp

/-- For a test drawn from the domains, every name-sorted pair realized
by the test is a member of the pair universe. -/
theorem sorted_zip_pair_mem {parameters : Params} {test : List String}
    (hk : (parameters.map Prod.fst).Nodup)
    (ht : drawnFromDomains parameters test = true) {xy : Assignment × Assignment}
    (hxy : xy ∈ listPairs ((parameters.map Prod.fst).zip test)) :
    sortPair xy ∈ generate_pairwise_combinations parameters := by
  have hlen : (parameters.map Prod.fst).length = test.length := by
    rw [drawn_length ht]
    simp
  have hsub := mem_listPairs_iff.mp hxy
  have hsubkeys : [xy.1.1, xy.2.1].Sublist (parameters.map Prod.fst) := by
    have h2 := hsub.map Prod.fst
    rwa [List.map_fst_zip _ _ (le_of_eq hlen)] at h2
  have hne : xy.1.1 ≠ xy.2.1 := by
    have hnd := List.Nodup.sublist hsubkeys hk
    intro he
    rw [he] at hnd
    simp at hnd
  have hmem := hsub.subset
  have h1 : xy.1 ∈ (parameters.map Prod.fst).zip test := hmem (by simp)
  have h2 : xy.2 ∈ (parameters.map Prod.fst).zip test := hmem (by simp)
  rcases zip_mem_domains ht xy.1 h1 with ⟨d1, hd1, hv1⟩
  rcases zip_mem_domains ht xy.2 h2 with ⟨d2, hd2, hv2⟩
  rw [sortPair]
  rcases hlt : asgLtb xy.2 xy.1 with _ | _
  · have hltb := hlt
    rw [asgLtb_of_ne xy.1 xy.2 (Ne.symm hne)] at hltb
    have hlt2 : strLt xy.1.1 xy.2.1 := by
      refine strLt_of_not ?_ (Ne.symm hne)
      intro hc
      unfold strLt at hc
      rw [hc] at hltb
      cases hltb
    simp only [hlt, Bool.false_eq_true, if_false]
    have hmemU := (mem_generate_iff hk xy.1.1 xy.2.1 xy.1.2 xy.2.2).mpr
      ⟨hlt2, ⟨d1, hd1, hv1⟩, ⟨d2, hd2, hv2⟩⟩
    exact hmemU
  · have hltb := hlt
    rw [asgLtb_of_ne xy.1 xy.2 (Ne.symm hne)] at hltb
    have hlt2 : strLt xy.2.1 xy.1.1 := hltb
    simp only [hlt, if_true]
    have hmemU := (mem_generate_iff hk xy.2.1 xy.1.1 xy.2.2 xy.1.2).mpr
      ⟨hlt2, ⟨d2, hd2, hv2⟩, ⟨d1, hd1, hv1⟩⟩
    exact hmemU

/-- For a test drawn from the domains, the greedy per-test pair set and
the universe-filtered per-test pair set of src/algo.py agree. -/
theorem testPairs_agree {parameters : Params} {test : List String}
    (hk : (parameters.map Prod.fst).Nodup)
    (ht : drawnFromDomains parameters test = true) :
    get_pairs_in_test test (parameters.map Prod.fst) =
      algo.testPairsOf parameters (generate_pairwise_combinations parameters) test := by
  have hlen : (parameters.map Prod.fst).length = test.length := by
    rw [drawn_length ht]
    simp
  rw [get_pairs_in_test_eq_zip _ _ hlen, algo.testPairsOf]
  congr 1
  symm
  apply List.filter_eq_self.mpr
  intro p hp
  rcases List.mem_map.mp hp with ⟨xy, hxy, he⟩
  rw [← he]
  exact decide_eq_true (sorted_zip_pair_mem hk ht hxy)

/-- Executable form of the greedy loop started on a parameter map: the
fuel can be taken to be the pair count itself. -/
theorem greedyFull_exec (parameters : Params) :
    greedyFull parameters =
      greedyLoopF (cartesianProduct (parameters.map Prod.snd)) (parameters.map Prod.fst)
        (generate_pairwise_combinations parameters).card
        (generate_pairwise_combinations parameters).card ∅ := by
  rw [greedyFull, ← greedyLoopF_eq]
  simp

theorem unionOf_subset {ls : List (Finset Pair)} {U : Finset Pair}
    (h : ∀ s ∈ ls, s ⊆ U) : unionOf ls ⊆ U := by
  induction ls with
  | nil => simp [unionOf]
  | cons s rest ih =>
    simp only [unionOf, List.foldr_cons]
    apply Finset.union_subset (h s (List.mem_cons_self _ _))
    exact ih fun u hu => h u (List.mem_cons_of_mem _ hu)

end PTC

namespace PTC

/-- Claim C1: for every parameter map whose keys are distinct and whose
domains are lists of distinct value labels,
generate_pairwise_combinations returns, as a set, exactly the pairs
((name1,value1),(name2,value2)) for every pair of distinct parameter
names with name1 lexicographically before name2 and every value1 in
name1's domain and value2 in name2's domain; and the number of pairs is
the sum, over the unordered parameter pairs, of |domain1|x|domain2|. -/
theorem claim1_pair_universe (parameters : Params)
    (hk : (parameters.map Prod.fst).Nodup)
    (hd : ∀ kv ∈ parameters, (kv.2 : List String).Nodup) :
    (∀ a b va vb : String,
      ((a, va), (b, vb)) ∈ generate_pairwise_combinations parameters ↔
        strLt a b ∧ (∃ da, (a, da) ∈ parameters ∧ va ∈ da) ∧
          ∃ db, (b, db) ∈ parameters ∧ vb ∈ db) ∧
    (generate_pairwise_combinations parameters).card =
      ((listPairs (sortedKeys parameters)).map fun pq =>
        (domOf parameters pq.1).length * (domOf parameters pq.2).length).sum :=
  ⟨fun a b va vb => mem_generate_iff hk a b va vb, generate_card hk hd⟩

/-- Witness for C1 at the concrete map b -> [1, 2], a -> [x]. -/
theorem claim1_witness :
    ((([("b", ["1", "2"]), ("a", ["x"])] : Params).map Prod.fst).Nodup ∧
      ∀ kv ∈ ([("b", ["1", "2"]), ("a", ["x"])] : Params), (kv.2 : List String).Nodup) ∧
    (∀ a b va vb : String,
      ((a, va), (b, vb)) ∈ generate_pairwise_combinations [("b", ["1", "2"]), ("a", ["x"])] ↔
        strLt a b ∧ (∃ da, (a, da) ∈ ([("b", ["1", "2"]), ("a", ["x"])] : Params) ∧ va ∈ da) ∧
          ∃ db, (b, db) ∈ ([("b", ["1", "2"]), ("a", ["x"])] : Params) ∧ vb ∈ db) ∧
    (generate_pairwise_combinations [("b", ["1", "2"]), ("a", ["x"])]).card =
      ((listPairs (sortedKeys [("b", ["1", "2"]), ("a", ["x"])])).map fun pq =>
        (domOf [("b", ["1", "2"]), ("a", ["x"])] pq.1).length *
          (domOf [("b", ["1", "2"]), ("a", ["x"])] pq.2).length).sum :=
  ⟨⟨by decide, by decide⟩, claim1_pair_universe _ (by decide) (by decide)⟩

/-- Claim C2: if the covered set at exit of the greedy loop equals the
pair universe, then the union of the per-test-case pair sets computed
by greedyalgo.count_unique_pairs on the returned suite equals the full
pair universe. -/
theorem claim2_full_coverage (parameters : Params)
    (hfull : (greedyFull parameters).2 = generate_pairwise_combinations parameters) :
    unionOf ((greedyalgo.count_unique_pairs
        (greedyalgo.find_minimum_test_suite parameters).1
        (generate_pairwise_combinations parameters) parameters).2.1) =
      generate_pairwise_combinations parameters := by
  rw [greedyalgo.count_unique_pairs, cupLoop_sets]
  have h := greedyLoop_covered (cartesianProduct (parameters.map Prod.snd))
    (parameters.map Prod.fst) (generate_pairwise_combinations parameters).card ∅
  rw [Finset.empty_union] at h
  rw [greedyalgo.find_minimum_test_suite]
  show unionOf ((greedyFull parameters).1.map
    fun t => get_pairs_in_test t (parameters.map Prod.fst)) =
    generate_pairwise_combinations parameters
  rw [greedyFull] at hfull ⊢
  rw [← h]
  exact hfull

/-- Witness for C2 at a map where the greedy loop reaches full
coverage. -/
theorem claim2_witness :
    (greedyFull [("a", ["x", "y"]), ("b", ["u"])]).2 =
      generate_pairwise_combinations [("a", ["x", "y"]), ("b", ["u"])] ∧
    unionOf ((greedyalgo.count_unique_pairs
        (greedyalgo.find_minimum_test_suite [("a", ["x", "y"]), ("b", ["u"])]).1
        (generate_pairwise_combinations [("a", ["x", "y"]), ("b", ["u"])])
        [("a", ["x", "y"]), ("b", ["u"])]).2.1) =
      generate_pairwise_combinations [("a", ["x", "y"]), ("b", ["u"])] := by
  have h : (greedyFull [("a", ["x", "y"]), ("b", ["u"])]).2 =
      generate_pairwise_combinations [("a", ["x", "y"]), ("b", ["u"])] := by
    rw [greedyFull_exec]
    decide
  exact ⟨h, claim2_full_coverage _ h⟩

/-- Claim C3 counterexample: on the map a -> [x, y], b -> [], c -> [u]
the candidate space is empty while the pair universe holds 2 pairs; the
greedy solver returns the empty suite paired with the pair universe —
the same plain (suite, pairs) shape a fully covering run returns (shown
on a second map) — with no error, flag, or any other distinct signal of
incomplete coverage, so the incomplete outcome is not surfaced to the
caller distinctly from full success. -/
theorem claim3_counterexample :
    greedyalgo.find_minimum_test_suite [("a", ["x", "y"]), ("b", []), ("c", ["u"])] =
      ([], generate_pairwise_combinations [("a", ["x", "y"]), ("b", []), ("c", ["u"])]) ∧
    (generate_pairwise_combinations [("a", ["x", "y"]), ("b", []), ("c", ["u"])]).card = 2 ∧
    (greedyalgo.count_unique_pairs
      (greedyalgo.find_minimum_test_suite [("a", ["x", "y"]), ("b", []), ("c", ["u"])]).1
      (generate_pairwise_combinations [("a", ["x", "y"]), ("b", []), ("c", ["u"])])
      [("a", ["x", "y"]), ("b", []), ("c", ["u"])]).1 = ∅ ∧
    greedyalgo.find_minimum_test_suite [("a", ["x"]), ("b", ["y"])] =
      ([["x", "y"]], generate_pairwise_combinations [("a", ["x"]), ("b", ["y"])]) := by
  simp only [greedyalgo.find_minimum_test_suite, greedyalgo.count_unique_pairs,
    greedyFull_exec]
  decide

/-- Claim C3 amended: when no candidate can make progress (here: the
candidate space is empty because some domain is empty), the greedy
solver silently returns the partial (in fact empty) suite together with
the pair universe, in exactly the shape of a successful return; no
incomplete-coverage outcome is surfaced to the caller. -/
theorem claim3_silent_partial (parameters : Params)
    (h : cartesianProduct (parameters.map Prod.snd) = []) :
    greedyalgo.find_minimum_test_suite parameters =
      ([], generate_pairwise_combinations parameters) := by
  rw [greedyalgo.find_minimum_test_suite, greedyFull, h,
    greedyLoop_break [] (parameters.map Prod.fst)
      (generate_pairwise_combinations parameters).card ∅ 0 rfl]

/-- Witness for the amended C3 at the concrete degenerate map. -/
theorem claim3_witness :
    cartesianProduct (([("a", ["x", "y"]), ("b", []), ("c", ["u"])] : Params).map Prod.snd)
        = [] ∧
    greedyalgo.find_minimum_test_suite [("a", ["x", "y"]), ("b", []), ("c", ["u"])] =
      ([], generate_pairwise_combinations [("a", ["x", "y"]), ("b", []), ("c", ["u"])]) :=
  ⟨by decide, claim3_silent_partial _ (by decide)⟩

end PTC

namespace PTC

/-- Claim C4 counterexample: greedyalgo.find_minimum_test_suite performs
no input validation; on the empty mapping it raises nothing and returns
the empty suite together with the empty pair set (its type in the
embedding is a plain pair because the source has no raise statement). -/
theorem claim4_counterexample :
    greedyalgo.find_minimum_test_suite ([] : Params) = ([], ∅) := by
  simp only [greedyalgo.find_minimum_test_suite, greedyFull_exec]
  decide

/-- Claim C4 amended: the exact solver in src/algo.py raises
(TypeError / ValueError, modelled as Except.error) on an empty mapping
or a non-list domain before any pair enumeration or solving — the
result does not depend on the solver status at all — while the greedy
solver performs no validation and returns normally on the empty
mapping (see the counterexample). -/
theorem claim4_validation (parameters : List (String × PyVal)) (status : CpStatus)
    (chosen : List (List String))
    (h : parameters = [] ∨ ∃ kv ∈ parameters, kv.2.isList = false) :
    ∃ msg, algo.find_minimum_test_suite parameters status chosen = .error msg := by
  rcases h with rfl | ⟨kv, hkv, hbad⟩
  · exact ⟨"Parameters dictionary cannot be empty", rfl⟩
  · have hne : parameters.isEmpty = false := by
      cases parameters
      · cases hkv
      · rfl
    have hall : parameters.all (fun kv => kv.2.isList) = false := by
      rcases hv : parameters.all (fun kv => kv.2.isList) with _ | _
      · rfl
      · rw [List.all_eq_true] at hv
        rw [hv kv hkv] at hbad
        cases hbad
    refine ⟨"All parameter values must be lists", ?_⟩
    simp [algo.find_minimum_test_suite, hne, hall]

/-- Witness for the amended C4 at a map with a non-list domain. -/
theorem claim4_witness :
    (([("a", PyVal.pyother "oops")] : List (String × PyVal)) = [] ∨
      ∃ kv ∈ ([("a", PyVal.pyother "oops")] : List (String × PyVal)),
        kv.2.isList = false) ∧
    ∃ msg, algo.find_minimum_test_suite [("a", PyVal.pyother "oops")]
      CpStatus.optimal [] = .error msg :=
  ⟨by decide, claim4_validation _ _ _ (by decide)⟩

/-- Claim C5: the greedy solver is deterministic — in this embedding it
is a pure function, so equal inputs give equal outputs definitionally —
and each iteration's candidate scan selects the first-encountered
maximum: whenever the scan of the candidate list (with the source's
initial accumulator (None, 0)) returns a candidate t with count n, the
list splits as l1 ++ t :: l2 where n is t's new-pair count, n is
positive, every candidate before t has a strictly smaller count, and no
candidate after t has a larger one. -/
theorem claim5_greedy_selection (param_keys : List String) (covered : Finset Pair)
    (all_values : List (List String)) (t : List String) (n : Nat)
    (h : selectLoop param_keys covered all_values (none, 0) = (some t, n)) :
    ∃ l1 l2, all_values = l1 ++ t :: l2 ∧ n = newCount param_keys covered t ∧ 0 < n ∧
      (∀ u ∈ l1, newCount param_keys covered u < newCount param_keys covered t) ∧
      (∀ u ∈ l2, newCount param_keys covered u ≤ newCount param_keys covered t) := by
  rcases selectLoop_spec param_keys covered all_values none 0 t n h with
    ⟨he, _⟩ | ⟨l1, l2, hs, hn, hc, h1, h2⟩
  · exact absurd (congrArg Prod.fst he) (by simp)
  · exact ⟨l1, l2, hs, hn, hn ▸ hc, fun u hu => hn ▸ h1 u hu, fun u hu => hn ▸ h2 u hu⟩

/-- Witness for C5: on the candidate space of a -> [x, y], b -> [u]
with nothing covered, the scan selects the first candidate [x, u]. -/
theorem claim5_witness :
    selectLoop ["a", "b"] ∅ [["x", "u"], ["y", "u"]] (none, 0) = (some ["x", "u"], 1) ∧
    ∃ l1 l2, [["x", "u"], ["y", "u"]] = l1 ++ ["x", "u"] :: l2 ∧
      (1 : Nat) = newCount ["a", "b"] ∅ ["x", "u"] ∧ (0 : Nat) < 1 ∧
      (∀ u ∈ l1, newCount ["a", "b"] ∅ u < newCount ["a", "b"] ∅ ["x", "u"]) ∧
      (∀ u ∈ l2, newCount ["a", "b"] ∅ u ≤ newCount ["a", "b"] ∅ ["x", "u"]) :=
  ⟨by decide, claim5_greedy_selection _ _ _ _ _ (by decide)⟩

/-- Claim C6: for every parameter map the greedy solver terminates —
its loop iterates at most once per universe pair, so the returned suite
has at most |universe| test cases — and, being a total function of its
typed input, returns a suite without raising an exception. -/
theorem claim6_greedy_terminates (parameters : Params) :
    (greedyalgo.find_minimum_test_suite parameters).1.length ≤
      (generate_pairwise_combinations parameters).card := by
  rw [greedyalgo.find_minimum_test_suite]
  show (greedyFull parameters).1.length ≤ (generate_pairwise_combinations parameters).card
  rw [greedyFull]
  have h := greedyLoop_length (cartesianProduct (parameters.map Prod.snd))
    (parameters.map Prod.fst) (generate_pairwise_combinations parameters).card ∅
  simpa using h

/-- Claim C7 counterexample: greedyalgo.count_unique_pairs does count
pairs outside the supplied universe: on the map a -> [x], b -> [y] and
the single test case [z, w] (values outside the domains), its covered
set contains ((a,z),(b,w)), which is not a member of the universe. -/
theorem claim7_counterexample :
    ¬ ((greedyalgo.count_unique_pairs [["z", "w"]]
        (generate_pairwise_combinations [("a", ["x"]), ("b", ["y"])])
        [("a", ["x"]), ("b", ["y"])]).1 ⊆
      generate_pairwise_combinations [("a", ["x"]), ("b", ["y"])]) := by
  decide

/-- Claim C7 amended: the universe-membership filter exists only in
src/algo.py: algo.count_unique_pairs places into its per-test-case pair
sets and its covered set only members of the supplied pair universe,
for every suite whatsoever; greedyalgo.count_unique_pairs has no such
filter and can count pairs outside the universe (see the
counterexample). -/
theorem claim7_algo_filter (test_cases : List (List String)) (all_pairs : Finset Pair)
    (parameters : Params) :
    (algo.count_unique_pairs test_cases all_pairs parameters).1 ⊆ all_pairs ∧
    ∀ s ∈ (algo.count_unique_pairs test_cases all_pairs parameters).2.1,
      s ⊆ all_pairs := by
  have htp : ∀ t, algo.testPairsOf parameters all_pairs t ⊆ all_pairs := by
    intro t p hp
    simp only [algo.testPairsOf, List.mem_toFinset, List.mem_filter] at hp
    exact of_decide_eq_true hp.2
  constructor
  · rw [algo.count_unique_pairs, cupLoop_covered, Finset.empty_union]
    apply unionOf_subset
    intro s hs
    rcases List.mem_map.mp hs with ⟨t, _, he⟩
    exact he ▸ htp t
  · rw [algo.count_unique_pairs, cupLoop_sets]
    intro s hs
    rcases List.mem_map.mp hs with ⟨t, _, he⟩
    exact he ▸ htp t

/-- Witness for the amended C7 at a concrete suite and universe. -/
theorem claim7_witness :
    (algo.count_unique_pairs [["x", "y"]]
        (generate_pairwise_combinations [("a", ["x"]), ("b", ["y"])])
        [("a", ["x"]), ("b", ["y"])]).1 ⊆
      generate_pairwise_combinations [("a", ["x"]), ("b", ["y"])] ∧
    ∀ s ∈ (algo.count_unique_pairs [["x", "y"]]
        (generate_pairwise_combinations [("a", ["x"]), ("b", ["y"])])
        [("a", ["x"]), ("b", ["y"])]).2.1,
      s ⊆ generate_pairwise_combinations [("a", ["x"]), ("b", ["y"])] :=
  claim7_algo_filter _ _ _

end PTC

namespace PTC

/-- Claim C8: when the constraint engine reports neither OPTIMAL nor
FEASIBLE, algo.find_minimum_test_suite (on validated input) returns the
sentinel (None, None) inside a normal return — no exception — for
every such status and every candidate assignment the engine might hold. -/
theorem claim8_no_solution (parameters : List (String × PyVal)) (status : CpStatus)
    (chosen : List (List String)) (h1 : parameters.isEmpty = false)
    (h2 : parameters.all (fun kv => kv.2.isList) = true)
    (h3 : status ≠ CpStatus.optimal) (h4 : status ≠ CpStatus.feasible) :
    algo.find_minimum_test_suite parameters status chosen = .ok (none, none) := by
  cases status
  case optimal => exact absurd rfl h3
  case feasible => exact absurd rfl h4
  all_goals simp [algo.find_minimum_test_suite, h1, h2, solveDispatch]

/-- Witness for C8 at a valid one-parameter map with status UNKNOWN. -/
theorem claim8_witness :
    (([("a", PyVal.pylist ["x"])] : List (String × PyVal)).isEmpty = false) ∧
    (([("a", PyVal.pylist ["x"])] : List (String × PyVal)).all
      (fun kv => kv.2.isList) = true) ∧
    CpStatus.unknown ≠ CpStatus.optimal ∧ CpStatus.unknown ≠ CpStatus.feasible ∧
    algo.find_minimum_test_suite [("a", PyVal.pylist ["x"])] CpStatus.unknown [] =
      .ok (none, none) :=
  ⟨by decide, by decide, by decide, by decide,
    claim8_no_solution _ _ _ (by decide) (by decide) (by decide) (by decide)⟩

/-- Claim C9: on suites whose test cases draw, in parameter order, one
value from each parameter's own domain, the two analyzer
implementations agree completely — equal covered sets, equal
per-test-case pair sets, and equal marginal new-coverage counts — when
given the same suite, the universe built from the map, and the map. -/
theorem claim9_analyzers_agree (parameters : Params) (suite : List (List String))
    (hk : (parameters.map Prod.fst).Nodup)
    (hs : ∀ t ∈ suite, drawnFromDomains parameters t = true) :
    greedyalgo.count_unique_pairs suite
        (generate_pairwise_combinations parameters) parameters =
      algo.count_unique_pairs suite
        (generate_pairwise_combinations parameters) parameters := by
  rw [greedyalgo.count_unique_pairs, algo.count_unique_pairs]
  apply cupLoop_congr
  intro t ht
  exact testPairs_agree hk (hs t ht)

/-- Witness for C9 at a concrete map and single-test suite drawn from
the domains. -/
theorem claim9_witness :
    ((([("a", ["x", "y"]), ("b", ["u"])] : Params).map Prod.fst).Nodup ∧
      (∀ t ∈ [["y", "u"]],
        drawnFromDomains [("a", ["x", "y"]), ("b", ["u"])] t = true)) ∧
    greedyalgo.count_unique_pairs [["y", "u"]]
        (generate_pairwise_combinations [("a", ["x", "y"]), ("b", ["u"])])
        [("a", ["x", "y"]), ("b", ["u"])] =
      algo.count_unique_pairs [["y", "u"]]
        (generate_pairwise_combinations [("a", ["x", "y"]), ("b", ["u"])])
        [("a", ["x", "y"]), ("b", ["u"])] :=
  ⟨⟨by decide, by decide⟩, claim9_analyzers_agree _ _ (by decide) (by decide)⟩

/-- Claim C10: every test case the greedy solver appends covers at
least one new pair: on the suite it returns, all marginal new-coverage
counts computed by greedyalgo.count_unique_pairs are strictly positive,
and consequently the suite contains no duplicate candidate. -/
theorem claim10_positive_marginals (parameters : Params) :
    (∀ n ∈ (greedyalgo.count_unique_pairs
        (greedyalgo.find_minimum_test_suite parameters).1
        (generate_pairwise_combinations parameters) parameters).2.2, 0 < n) ∧
    (greedyalgo.find_minimum_test_suite parameters).1.Nodup := by
  constructor
  · intro n hn
    apply greedyLoop_counts_pos (cartesianProduct (parameters.map Prod.snd))
      (parameters.map Prod.fst) (generate_pairwise_combinations parameters).card ∅ n
    simpa [greedyalgo.count_unique_pairs, greedyalgo.find_minimum_test_suite,
      greedyFull] using hn
  · have h := greedyLoop_nodup (cartesianProduct (parameters.map Prod.snd))
      (parameters.map Prod.fst) (generate_pairwise_combinations parameters).card ∅
    simpa [greedyalgo.find_minimum_test_suite, greedyFull] using h

/-- Witness for C10 at a concrete two-parameter map. -/
theorem claim10_witness :
    (∀ n ∈ (greedyalgo.count_unique_pairs
        (greedyalgo.find_minimum_test_suite [("a", ["x"]), ("b", ["y"])]).1
        (generate_pairwise_combinations [("a", ["x"]), ("b", ["y"])])
        [("a", ["x"]), ("b", ["y"])]).2.2, 0 < n) ∧
    (greedyalgo.find_minimum_test_suite [("a", ["x"]), ("b", ["y"])]).1.Nodup :=
  claim10_positive_marginals _

end PTC
